import Mathlib

/-
Verification of the dependency-graph reconciliation and license-resolution
engine of license.sh.

The development shallowly embeds the two source files
`license_sh/runners/yarn/__init__.py` and `license_sh/runners/python/__init__.py`.
Python dictionaries are modelled as insertion-ordered association lists
(lookup finds the first matching key; assignment replaces in place, keeping the
original position, or appends).  Python's `None` is modelled by `Option`;
Python string-formatting of `None` yields the string "None".  Exceptions are
modelled by `Option`/`RunRes` failure values.  The unbounded recursion of
`add_nested_dependencies` is modelled with an explicit fuel parameter that is
consumed once per recursion depth; `none`/`RunRes.fuelOut` means the fuel ran
out, which is an artefact of the embedding (termination is proved separately).
-/

/-- Python truthiness of an optional string: `None` and the empty string are
falsy, every other string is truthy. -/
def falsyStr : Option String → Bool
  | none => true
  | some s => s == ""

/-- Python `f"...{x}..."` formatting of an optional string: `str(None)` is the
string "None". -/
def pyOptStr : Option String → String
  | some s => s
  | none => "None"

mutual
/-- A record of the flat tree built by `get_flat_tree` (yarn/__init__.py,
lines 102-140): a dict with fields `name`, `version` and `dependencies`.
`name` is optional only to model malformed records; `version` is `none` when
the lock map had no entry for the package. -/
inductive FlatDep where
  | mk (name : Option String) (version : Option String) (dependencies : Deps)
deriving DecidableEq

/-- An insertion-ordered dictionary from full qualified names to `FlatDep`
records, modelling the Python dicts stored under the `dependencies` key. -/
inductive Deps where
  | nil
  | cons (key : String) (value : FlatDep) (rest : Deps)
deriving DecidableEq
end

/-- Field accessor for `FlatDep.name`. -/
def FlatDep.name : FlatDep → Option String
  | .mk n _ _ => n

/-- Field accessor for `FlatDep.version`. -/
def FlatDep.version : FlatDep → Option String
  | .mk _ v _ => v

/-- Field accessor for `FlatDep.dependencies`. -/
def FlatDep.dependencies : FlatDep → Deps
  | .mk _ _ d => d

/-- Python `dict.get(key)` on a `Deps` dictionary: the value at the first
matching key, or `none`. -/
def Deps.get : Deps → String → Option FlatDep
  | .nil, _ => none
  | .cons k v rest, key => if k = key then some v else rest.get key

/-- Python truthiness of a `Deps` dict: the empty dict is falsy. -/
def Deps.isEmpty : Deps → Bool
  | .nil => true
  | .cons _ _ _ => false

/-- Python `d[key] = val` on a `Deps` dictionary: replaces the value at an
existing key in place, otherwise appends the binding at the end. -/
def Deps.insert : Deps → String → FlatDep → Deps
  | .nil, key, val => .cons key val .nil
  | .cons k v rest, key, val =>
    if k = key then .cons k val rest else .cons k v (rest.insert key val)

/-- Concatenation of two `Deps` dictionaries (used only to state claims about
an entry sitting at an arbitrary position). -/
def Deps.append : Deps → Deps → Deps
  | .nil, e => e
  | .cons k v rest, e => .cons k v (rest.append e)

/-- Number of top-level entries of a `Deps` dictionary. -/
def Deps.lengthTop : Deps → Nat
  | .nil => 0
  | .cons _ _ rest => 1 + rest.lengthTop

mutual
/-- All `name` field values occurring anywhere inside a record, including
nested dependencies. -/
def FlatDep.namesIn : FlatDep → List String
  | .mk n _ deps => n.toList ++ deps.namesIn

/-- All `name` field values occurring anywhere inside a dictionary. -/
def Deps.namesIn : Deps → List String
  | .nil => []
  | .cons _ c rest => c.namesIn ++ rest.namesIn
end

/-- One entry of the lock data produced by the external `parseYarnLock.js`
helper: a record carrying at most a resolved `version` string. -/
structure LockEntry where
  version : Option String
deriving DecidableEq

/-- The parsed yarn lock json: its `object` field maps requirement keys
(`name@range`) to `LockEntry` records. -/
structure YarnLockJson where
  object : List (String × LockEntry)
deriving DecidableEq

/-- Python `d[key] = val` on the package map (a dict from requirement keys to
optional resolved versions). -/
def pmInsert : List (String × Option String) → String → Option String →
    List (String × Option String)
  | [], k, v => [(k, v)]
  | (k', v') :: rest, k, v =>
    if k' = k then (k', v) :: rest else (k', v') :: pmInsert rest k v

/-- Raw association-list lookup on the package map: distinguishes an absent
key (`none`) from a key bound to `None` (`some none`). -/
def pmLookup : List (String × Option String) → String → Option (Option String)
  | [], _ => none
  | (k, v) :: rest, key => if k = key then some v else pmLookup rest key

/-- Python `dict.get(key)` on the package map: collapses an absent key and a
key bound to `None` into `none`, exactly as the Python code observes it. -/
def pmGet (m : List (String × Option String)) (key : String) : Option String :=
  match pmLookup m key with
  | some v => v
  | none => none

/-- Whether the package map contains the given key at all. -/
def pmContainsKey (m : List (String × Option String)) (key : String) : Bool :=
  (pmLookup m key).isSome

/-- Model of `parse_yarn_lock` (yarn/__init__.py, lines 62-81): for every
entry of the lock data's `object` dict, `package_map[key] =
dependency.get('version', None)` — note that an entry without a `version`
field is inserted with value `None`, not skipped. -/
def parse_yarn_lock (json_element : YarnLockJson) : List (String × Option String) :=
  json_element.object.foldl (fun package_map kv => pmInsert package_map kv.1 kv.2.version) []

/-- Python `str.split(sep)` for a one-character separator, on the character
list of the string: splitting the empty string yields one empty part, and
every occurrence of the separator starts a new part. -/
def splitOnChar (sep : Char) : List Char → List (List Char)
  | [] => [[]]
  | c :: rest =>
    if c = sep then [] :: splitOnChar sep rest
    else
      match splitOnChar sep rest with
      | [] => [[c]]
      | part :: parts => (c :: part) :: parts

/-- Python `name.split('@')`. -/
def pySplitAtSign (s : String) : List String :=
  (splitOnChar '@' s.data).map String.mk

/-- Model of `get_name` (yarn/__init__.py, lines 83-100):
`parsedName, signName, *rest = name.split('@')` followed by the scoped-name
special case (`name.startswith('@')`).  Returns `none` when the unpacking
fails (fewer than two parts), which in Python raises a `ValueError`. -/
def get_name (name : String) : Option String :=
  match pySplitAtSign name with
  | parsedName :: signName :: _ =>
    some (if name.data.head? = some '@' then "@" ++ signName else parsedName)
  | _ => none

mutual
/-- One record of the raw `yarn list --json` output: a `name` field (absent in
malformed records) and a list of children. -/
inductive YarnTree where
  | mk (name : Option String) (children : YarnForest)
deriving DecidableEq

/-- A list of raw `yarn list` records. -/
inductive YarnForest where
  | nil
  | cons (head : YarnTree) (tail : YarnForest)
deriving DecidableEq
end

/-- Worker for `get_flat_tree`: folds the listing records into the flat-tree
dictionary accumulator.  Returns `none` when the Python code would raise
(`dependency.get('name')` is `None`, or `get_name` fails to unpack). -/
def getFlatTreeGo : YarnForest → List (String × Option String) → Deps → Option Deps
  | .nil, _, flat_tree => some flat_tree
  | .cons (.mk dep_full_name children) rest, package_map, flat_tree =>
    match dep_full_name with
    | none => none
    | some full =>
      match get_name full with
      | none => none
      | some nm =>
        match getFlatTreeGo children package_map .nil with
        | none => none
        | some sub =>
          getFlatTreeGo rest package_map
            (flat_tree.insert full (.mk (some nm) (pmGet package_map full) sub))

/-- Model of `get_flat_tree` (yarn/__init__.py, lines 102-140): one flat-tree
record per listing record, with `name` split by `get_name`, `version` resolved
through the package map, and `dependencies` built recursively from the
children. -/
def get_flat_tree (dependencies : YarnForest)
    (package_map : List (String × Option String)) : Option Deps :=
  getFlatTreeGo dependencies package_map .nil

mutual
/-- A node of the final dependency tree (the `AnyNode` objects after the
helper `dependencies` attribute has been deleted, yarn/__init__.py lines
258-260): a name, an optional version and the attached children in insertion
order. -/
inductive Node where
  | mk (name : String) (version : Option String) (children : NodeList)
deriving DecidableEq

/-- A list of dependency-tree nodes. -/
inductive NodeList where
  | nil
  | cons (head : Node) (tail : NodeList)
deriving DecidableEq
end

/-- Field accessor for `Node.name`. -/
def Node.name : Node → String
  | .mk n _ _ => n

/-- Field accessor for `Node.version`. -/
def Node.version : Node → Option String
  | .mk _ v _ => v

/-- Field accessor for `Node.children`. -/
def Node.children : Node → NodeList
  | .mk _ _ cs => cs

/-- Conversion of a `NodeList` to an ordinary list. -/
def NodeList.toList : NodeList → List Node
  | .nil => []
  | .cons h t => h :: t.toList

/-- The `(name, version)` projections of a node list, in order. -/
def NodeList.nvList : NodeList → List (String × Option String)
  | .nil => []
  | .cons (.mk n v _) t => (n, v) :: t.nvList

/-- An ancestor of the node being expanded, as `add_nested_dependencies` reads
it: the `AnyNode`'s `name` and its helper `dependencies` dict.  A chain
`[parent, grandparent, ..., root]` encodes `node.parent`, `node.parent.parent`
and so on up to the tree root. -/
structure Anc where
  name : String
  deps : Deps
deriving DecidableEq

/-- Model of `find_full_dependency` (yarn/__init__.py, lines 170-190): the
dict entry for `name`, provided its own `dependencies` dict is non-empty. -/
def find_full_dependency (dependencies : Deps) (name : String) : Option FlatDep :=
  match dependencies.get name with
  | none => none
  | some dependency =>
    if dependency.dependencies.isEmpty then none else some dependency

/-- Model of `get_node_from_dependency` (yarn/__init__.py, lines 142-168):
the validated `(name, version)` of the node to attach, or `none` when either
field is missing or falsy (in which case no node is created). -/
def get_node_from_dependency (dependency : FlatDep) : Option (String × String) :=
  if falsyStr dependency.version || falsyStr dependency.name then none
  else
    match dependency.name, dependency.version with
    | some n, some v => some (n, v)
    | _, _ => none

/-- The ancestor-name list accumulated by the `while checkNode.parent` loop of
`add_nested_dependencies` (lines 213-230): the walk appends the name of each
node strictly above the immediate parent, root included, and
`names = names[:-1]` then drops the root again — so the list holds the names
of the grandparent up to the root's child, excluding both the immediate parent
and the root. -/
def ancestor_guard_names (ancs : List Anc) : List String :=
  ((ancs.map Anc.name).tail).dropLast

/-- The ancestor search of `add_nested_dependencies` (lines 215-228): walk the
chain from the immediate parent outward (the root included, via the separate
"Check the root" block), and keep the first ancestor record for `dep_name`
whose own child-set is non-empty (`if not dep and full_dep`). -/
def authoritative_record : List Anc → String → Option FlatDep
  | [], _ => none
  | anc :: rest, dep_name =>
    match find_full_dependency anc.deps dep_name with
    | some full_dep => some full_dep
    | none => authoritative_record rest dep_name

/-- One pass of the `for dependency in dependency.get('dependencies',
{}).values()` loop of `add_nested_dependencies` (lines 207-234), parameterised
by the recursive call `recurse` (applied to the adopted full record and the
extended ancestor chain).  Per entry: build the candidate node (skip if
invalid), search the ancestor chain for the authoritative record, adopt its
child-set, and recurse unless the candidate's name occurs among the guard
names (the cycle guard) or no authoritative record was found (`if dep:`). -/
def add_nested_loop (recurse : FlatDep → List Anc → Option NodeList) :
    Deps → List Anc → Option NodeList
  | .nil, _ => some .nil
  | .cons _ c rest, ancs =>
    match get_node_from_dependency c with
    | none => add_nested_loop recurse rest ancs
    | some (n, v) =>
      let dep_name := n ++ "@" ++ v
      let dep := authoritative_record ancs dep_name
      let names := ancestor_guard_names ancs
      let children : Option NodeList :=
        match dep with
        | none => some .nil
        | some full_dep =>
          if n ∈ names then some .nil
          else recurse full_dep ({ name := n, deps := full_dep.dependencies } :: ancs)
      match children, add_nested_loop recurse rest ancs with
      | some cs, some ns => some (.cons (.mk n (some v) cs) ns)
      | _, _ => none

/-- Fueled model of `add_nested_dependencies` (yarn/__init__.py, lines
193-234) applied to a `dependencies` dict: fuel is consumed once per
recursion depth; `none` means the fuel ran out. -/
def add_nested_go : Nat → Deps → List Anc → Option NodeList
  | 0, _, _ => none
  | fuel + 1, deps, ancs =>
    add_nested_loop (fun full_dep ancs' => add_nested_go fuel full_dep.dependencies ancs') deps ancs

/-- Model of `add_nested_dependencies(dependency, parent)`: expands every
entry of `dependency['dependencies']` and attaches the resulting nodes under
the parent, which is the head of the ancestor chain `ancs` (the caller
guarantees `ancs.head.deps = dependency.dependencies`, as the Python code
does). -/
def add_nested_dependencies (fuel : Nat) (dependency : FlatDep) (ancs : List Anc) :
    Option NodeList :=
  add_nested_go fuel dependency.dependencies ancs

/-- The `package.json` manifest data read by `get_dependency_tree`: project
name and version, plus the declared dependency map (name to range). -/
structure PackageJson where
  name : Option String
  version : Option String
  dependencies : List (String × String)
deriving DecidableEq

/-- Result of running a fueled model of a Python function: either the fuel ran
out (an artefact of the embedding), or the Python code raised an uncaught
exception (`exn`), or it returned a value. -/
inductive RunRes (α : Type) where
  | fuelOut
  | exn
  | ok (val : α)
deriving DecidableEq

/-- The top-level loop of `get_dependency_tree` (lines 251-256): for each
declared dependency, resolve the locked version through the package map, look
the full name up in the flat tree, build the first-level node and expand its
nested dependencies.  When the flat tree has no entry for the constructed key,
`dependency` is `None` and `dependency.get('version')` raises an
`AttributeError` — modelled by `RunRes.exn`. -/
def buildTops (fuel : Nat) (flat_tree : Deps) (package_map : List (String × Option String))
    (rootName : String) : List (String × String) → RunRes NodeList
  | [] => .ok .nil
  | (dep_name, dep_version) :: rest =>
    let resolved_version := pmGet package_map (dep_name ++ "@" ++ dep_version)
    match flat_tree.get (dep_name ++ "@" ++ pyOptStr resolved_version) with
    | none => .exn
    | some dependency =>
      match add_nested_go fuel dependency.dependencies
          [⟨dep_name, dependency.dependencies⟩, ⟨rootName, flat_tree⟩] with
      | none => .fuelOut
      | some children =>
        match buildTops fuel flat_tree package_map rootName rest with
        | .fuelOut => .fuelOut
        | .exn => .exn
        | .ok ns => .ok (.cons (.mk dep_name dependency.version children) ns)

/-- Model of `get_dependency_tree` (yarn/__init__.py, lines 236-262): the root
node carries the project's name (default "package.json") and version, its
`dependencies` helper field is the whole flat tree, and its children are built
by `buildTops`. -/
def get_dependency_tree (fuel : Nat) (flat_tree : Deps) (package_json : PackageJson)
    (package_map : List (String × Option String)) : RunRes Node :=
  let rootName := package_json.name.getD "package.json"
  match buildTops fuel flat_tree package_map rootName package_json.dependencies with
  | .fuelOut => .fuelOut
  | .exn => .exn
  | .ok children => .ok (.mk rootName package_json.version children)

mutual
/-- A dependency-tree node after the license annotation pass of
`YarnRunner.check` (lines 295-296): like `Node` but carrying the `license`
attribute set from the license map. -/
inductive LNode where
  | mk (name : String) (version : Option String) (license : Option String) (children : LNodeList)
deriving DecidableEq

/-- A list of annotated dependency-tree nodes. -/
inductive LNodeList where
  | nil
  | cons (head : LNode) (tail : LNodeList)
deriving DecidableEq
end

/-- Python `dict.get(key, None)` on a license map with string values. -/
def lmGet : List (String × String) → String → Option String
  | [], _ => none
  | (k, v) :: rest, key => if k = key then some v else lmGet rest key

mutual
/-- The annotation pass of `YarnRunner.check` (lines 295-296): every node's
`license` attribute becomes `license_map.get(f'{node.name}@{node.version}',
None)`. -/
def annotate (license_map : List (String × String)) : Node → LNode
  | .mk n v cs =>
    .mk n v (lmGet license_map (n ++ "@" ++ pyOptStr v)) (annotateList license_map cs)

/-- The annotation pass applied to a node list. -/
def annotateList (license_map : List (String × String)) : NodeList → LNodeList
  | .nil => .nil
  | .cons h t => .cons (annotate license_map h) (annotateList license_map t)
end

/-- Model of `YarnRunner.check` (yarn/__init__.py, lines 276-298) on already
parsed inputs: parse the lock data, build the flat tree and the dependency
tree, set `license_map = {}` (line 292), annotate every node, and return the
annotated tree together with the license map. -/
def YarnRunner_check (fuel : Nat) (package_json : PackageJson)
    (yarn_lock_json : YarnLockJson) (yarn_list : YarnForest) :
    RunRes (LNode × List (String × String)) :=
  let package_map := parse_yarn_lock yarn_lock_json
  match get_flat_tree yarn_list package_map with
  | none => .exn
  | some flat_tree =>
    match get_dependency_tree fuel flat_tree package_json package_map with
    | .fuelOut => .fuelOut
    | .exn => .exn
    | .ok dep_tree =>
      let license_map : List (String × String) := []
      .ok (annotate license_map dep_tree, license_map)

/-- A decoded JSON value, as returned by Python's `json.loads`. -/
inductive JVal where
  | null
  | bool (b : Bool)
  | num (n : Int)
  | str (s : String)
  | arr (elems : List JVal)
  | obj (fields : List (String × JVal))

/-- Python `dict.get(key)` on a decoded JSON object's field list. -/
def jObjGet : List (String × JVal) → String → Option JVal
  | [], _ => none
  | (k, v) :: rest, key => if k = key then some v else jObjGet rest key

/-- Python `str()` of a decoded JSON value, as used by the f-string building
the license-map key.  Scalars are modelled exactly (`str(None) = "None"`,
`str(True) = "True"`, ...); the textual form of lists and dicts is not needed
by any claim and is abbreviated. -/
def pyJStr : JVal → String
  | .null => "None"
  | .bool true => "True"
  | .bool false => "False"
  | .num n => toString n
  | .str s => s
  | .arr _ => "[...]"
  | .obj _ => "..."

/-- Python `d[key] = val` on the license map built by `fetch_licenses`. -/
def lmInsertJ : List (String × JVal) → String → JVal → List (String × JVal)
  | [], k, v => [(k, v)]
  | (k', v') :: rest, k, v =>
    if k' = k then (k', v) :: rest else (k', v') :: lmInsertJ rest k v

/-- Raw lookup on the license map built by `fetch_licenses`. -/
def lmLookupJ : List (String × JVal) → String → Option JVal
  | [], _ => none
  | (k, v) :: rest, key => if k = key then some v else lmLookupJ rest key

/-- Processing of one completed response inside `fetch_concurrent`
(python/__init__.py, lines 57-64).  The response body is given already decoded
(`none` models a body on which `json.loads` raises `JSONDecodeError`, which is
caught and ignored).  A body that decodes to a non-object, or whose `info`
field holds a non-object, makes `page.get`/`info.get` raise an uncaught
`AttributeError`, modelled by the result `none` of the whole step. -/
def fetch_step (license_map : List (String × JVal)) (body : Option JVal) :
    Option (List (String × JVal)) :=
  match body with
  | none => some license_map
  | some (.obj fields) =>
    match (jObjGet fields "info").getD (.obj []) with
    | .obj infoFields =>
      let nameVal := (jObjGet infoFields "name").getD .null
      let versionVal := (jObjGet infoFields "version").getD .null
      let licenseVal := (jObjGet infoFields "license").getD (.str "Unknown")
      some (lmInsertJ license_map (pyJStr nameVal ++ "@" ++ pyJStr versionVal) licenseVal)
    | _ => none
  | some _ => none

/-- Folding `fetch_step` over all completed responses.  `asyncio.as_completed`
yields every pending task exactly once; completion order is abstracted as the
list order (each completed result only inserts a key derived from its own
body, so the abstraction is faithful whenever those keys are distinct). -/
def fetchLicensesGo : List (Option JVal) → List (String × JVal) →
    Option (List (String × JVal))
  | [], license_map => some license_map
  | body :: rest, license_map =>
    match fetch_step license_map body with
    | none => none
    | some lm => fetchLicensesGo rest lm

/-- The registry host queried by the python runner (python/__init__.py,
line 25). -/
def PYPI_HOST : String := "https://pypi.org/pypi"

/-- The lookup URL for one `(dependency, version)` pair (line 42). -/
def fetch_url (dv : String × String) : String :=
  PYPI_HOST ++ "/" ++ dv.1 ++ "/" ++ dv.2 ++ "/json"

/-- Model of `PythonRunner.fetch_licenses` (python/__init__.py, lines 38-68).
The network is abstracted as a function from URL to optionally-decoded
response body; one GET is issued per `(name, version)` pair.  The result is
`none` when an uncaught exception aborts the batch, otherwise the license map,
whose keys come from each response's own `info.name`/`info.version` fields and
whose values are the raw `info.license` JSON values (defaulting to the string
"Unknown" when the field is absent). -/
def fetch_licenses (all_dependencies : List (String × String))
    (network : String → Option JVal) : Option (List (String × JVal)) :=
  fetchLicensesGo ((all_dependencies.map fetch_url).map network) []

mutual
/-- Checker for the acyclicity property as the specification states it: the
node's name differs from every name in `anc` (its strict ancestors below the
root, immediate parent first), recursively. -/
def nodeNamesOk (anc : List String) : Node → Bool
  | .mk n _ cs => decide (n ∉ anc) && nodeListNamesOk (n :: anc) cs

/-- List version of `nodeNamesOk`. -/
def nodeListNamesOk (anc : List String) : NodeList → Bool
  | .nil => true
  | .cons h t => nodeNamesOk anc h && nodeListNamesOk anc t
end

/-- Whether a reconciled tree satisfies the specification's acyclicity
invariant: no node's name equals the name of any of its strict ancestors,
the root excluded. -/
def treeNamesOk : Node → Bool
  | .mk _ _ cs => nodeListNamesOk [] cs

/-- Python truthiness of a node list. -/
def NodeList.isNil : NodeList → Bool
  | .nil => true
  | .cons _ _ => false

mutual
/-- Checker for the invariant the code actually maintains: a node that has
children has a name different from every strict ancestor other than its
immediate parent, the root excluded (`anc` lists the strict ancestors below
the root, immediate parent first). -/
def expandedNameOk (anc : List String) : Node → Bool
  | .mk n _ cs =>
    (cs.isNil || decide (n ∉ anc.drop 1)) && expandedNameOkList (n :: anc) cs

/-- List version of `expandedNameOk`. -/
def expandedNameOkList (anc : List String) : NodeList → Bool
  | .nil => true
  | .cons h t => expandedNameOk anc h && expandedNameOkList anc t
end

/-- Whether every expanded (non-leaf) node of the tree has a name distinct
from all of its strict ancestors except possibly its immediate parent, the
root excluded. -/
def treeExpandedNameOk : Node → Bool
  | .mk _ _ cs => expandedNameOkList [] cs

/-- First node of the list with the given name. -/
def NodeList.findByName : NodeList → String → Option Node
  | .nil, _ => none
  | .cons h t, s => if h.name = s then some h else t.findByName s

/-- Walks a name path down a tree. -/
def nodePath : Option Node → List String → Option Node
  | n?, [] => n?
  | some n, s :: rest => nodePath (n.children.findByName s) rest
  | none, _ :: _ => none

/-- The tree of a successful `get_dependency_tree` run. -/
def treeOf : RunRes Node → Option Node
  | .ok t => some t
  | _ => none

/-- The node reached by following a name path from the root of a successful
`get_dependency_tree` run. -/
def pathNode (r : RunRes Node) (path : List String) : Option Node :=
  nodePath (treeOf r) path

/-- The `(name, version)` pairs of the records of a dict that
`get_node_from_dependency` accepts — exactly the nodes the loop of
`add_nested_dependencies` emits for that dict, in order. -/
def validEntryNVs : Deps → List (String × String)
  | .nil => []
  | .cons _ c rest =>
    match get_node_from_dependency c with
    | some nv => nv :: validEntryNVs rest
    | none => validEntryNVs rest

/-- Tags the version of a `(name, version)` pair as present. -/
def nvSome (q : String × String) : String × Option String := (q.1, some q.2)

/-- The specification's description of one reconciled node (spec section 4.3,
steps 2-6): the node carries the entry's name and version, and whenever the
ancestor walk (immediate parent outward to the root) finds an authoritative
record — the closest ancestor holding a record for `name@version` with a
non-empty child-set — and the cycle guard does not fire, the node's children
are exactly the (valid) entries of that authoritative record's child-set. -/
def reconcileSpec (ancs : List Anc) (nv : String × String) (node : Node) : Prop :=
  node.name = nv.1 ∧ node.version = some nv.2 ∧
  ∀ full_dep, authoritative_record ancs (nv.1 ++ "@" ++ nv.2) = some full_dep →
    nv.1 ∉ ancestor_guard_names ancs →
    node.children.nvList = (validEntryNVs full_dep.dependencies).map nvSome

mutual
/-- Whether every node of an annotated tree has `license = None`. -/
def lnodeLicensesNone : LNode → Bool
  | .mk _ _ lic cs => lic.isNone && lnodeListLicensesNone cs

/-- List version of `lnodeLicensesNone`. -/
def lnodeListLicensesNone : LNodeList → Bool
  | .nil => true
  | .cons h t => lnodeLicensesNone h && lnodeListLicensesNone t
end

/-- Whether a JSON value is a string. -/
def JVal.isStr : JVal → Bool
  | .str _ => true
  | _ => false

/-- Checker for the claim that a queried pair either appears in the license
map under its key with a string value or is omitted entirely. -/
def strOrAbsentJ (m : List (String × JVal)) (key : String) : Bool :=
  match lmLookupJ m key with
  | none => true
  | some v => v.isStr

/-- The license-map key of a queried `(name, version)` pair. -/
def pairKey (p : String × String) : String := p.1 ++ "@" ++ p.2

/-- The license value `fetch_licenses` extracts from a response's `info`
object: the raw `license` field, or the string "Unknown" when absent. -/
def licenseOf (infoFields : List (String × JVal)) : JVal :=
  (jObjGet infoFields "license").getD (.str "Unknown")

/-- A response body that is either undecodable or a well-formed registry
answer echoing the queried pair's name and version in its `info` object (the
shape the registry documents, spec section 6). -/
def EchoOk (p : String × String) : Option JVal → Prop
  | none => True
  | some page => ∃ fields infoFields,
      page = .obj fields ∧ jObjGet fields "info" = some (.obj infoFields) ∧
      jObjGet infoFields "name" = some (.str p.1) ∧
      jObjGet infoFields "version" = some (.str p.2)

/-- Leaf record `x@2` (empty child-set placeholder) inside `x@1`'s child-set. -/
def c2X2i : FlatDep := .mk (some "x") (some "2") .nil

/-- Record `x@1`, whose child-set redeclares the package name `x` at
version 2. -/
def c2X : FlatDep := .mk (some "x") (some "1") (.cons "x@2" c2X2i .nil)

/-- Leaf record `y@1`. -/
def c2Y : FlatDep := .mk (some "y") (some "1") .nil

/-- Root-level full record for `x@2`, with child `y@1`. -/
def c2X2r : FlatDep := .mk (some "x") (some "2") (.cons "y@1" c2Y .nil)

/-- Empty placeholder record for `w@1` inside `y@1`'s child-set. -/
def c2W2 : FlatDep := .mk (some "w") (some "1") .nil

/-- Record `y@1` under `w@1`, whose child-set points back at `w@1`. -/
def c2Yw : FlatDep := .mk (some "y") (some "1") (.cons "w@1" c2W2 .nil)

/-- Record `w@1`, whose grandchild redeclares `w@1` (a structural cycle). -/
def c2W : FlatDep := .mk (some "w") (some "1") (.cons "y@1" c2Yw .nil)

/-- Flat tree combining the parent-child name clash (`x@1` with child `x@2`)
and the cycle `w → y → w`. -/
def c2Flat : Deps := .cons "x@1" c2X (.cons "x@2" c2X2r (.cons "w@1" c2W .nil))

/-- Manifest declaring `x` and `w`. -/
def c2Pj : PackageJson := ⟨some "proj", some "1.0.0", [("x", "^1"), ("w", "^1")]⟩

/-- Lock map resolving the two declared ranges. -/
def c2Pm : List (String × Option String) := [("x@^1", some "1"), ("w@^1", some "1")]

/-- Leaf placeholder `x@1.0.0` re-encountered below `y@1.0.0`. -/
def c3X2 : FlatDep := .mk (some "x") (some "1.0.0") .nil

/-- Record `y@1.0.0` that transitively redeclares `x@1.0.0`. -/
def c3Y : FlatDep := .mk (some "y") (some "1.0.0") (.cons "x@1.0.0" c3X2 .nil)

/-- Record `x@1.0.0` depending on `y@1.0.0`. -/
def c3X : FlatDep := .mk (some "x") (some "1.0.0") (.cons "y@1.0.0" c3Y .nil)

/-- Flat tree of the cyclic scenario `x@1.0.0 → y@1.0.0 → x@1.0.0`. -/
def c3Flat : Deps := .cons "x@1.0.0" c3X .nil

/-- Manifest declaring `x`. -/
def c3Pj : PackageJson := ⟨some "proj", some "1.0.0", [("x", "^1.0.0")]⟩

/-- Lock map resolving `x@^1.0.0`. -/
def c3Pm : List (String × Option String) := [("x@^1.0.0", some "1.0.0")]

/-- Manifest declaring a dependency `a` whose requirement key has no entry in
the lock map. -/
def c4Pj : PackageJson := ⟨some "proj", none, [("a", "^1.0.0")]⟩

/-- Leaf record `p@1.0.0`. -/
def c9P : FlatDep := .mk (some "p") (some "1.0.0") .nil

/-- Full record for `z@4.0.0` inside subtree `a`, with child `p`. -/
def c9Za : FlatDep := .mk (some "z") (some "4.0.0") (.cons "p@1.0.0" c9P .nil)

/-- Record `a@1.0.0` holding its own full record of `z@4.0.0`. -/
def c9A : FlatDep := .mk (some "a") (some "1.0.0") (.cons "z@4.0.0" c9Za .nil)

/-- Empty placeholder for `z@4.0.0` inside subtree `b`. -/
def c9Zb : FlatDep := .mk (some "z") (some "4.0.0") .nil

/-- Record `b@1.0.0` holding only a placeholder of `z@4.0.0`. -/
def c9B : FlatDep := .mk (some "b") (some "1.0.0") (.cons "z@4.0.0" c9Zb .nil)

/-- Leaf record `q@1.0.0`. -/
def c9Q : FlatDep := .mk (some "q") (some "1.0.0") .nil

/-- Root-level full record for `z@4.0.0`, with child `q`. -/
def c9Zr : FlatDep := .mk (some "z") (some "4.0.0") (.cons "q@1.0.0" c9Q .nil)

/-- Flat tree where `z@4.0.0` occurs in the two unrelated subtrees `a` and
`b`, with different non-empty records in scope (one inside `a`, one at the
root). -/
def c9Flat : Deps := .cons "a@1.0.0" c9A (.cons "b@1.0.0" c9B (.cons "z@4.0.0" c9Zr .nil))

/-- Manifest declaring `a` and `b`. -/
def c9Pj : PackageJson := ⟨some "proj", some "1.0.0", [("a", "^1"), ("b", "^1")]⟩

/-- Lock map resolving the two declared ranges. -/
def c9Pm : List (String × Option String) := [("a@^1", some "1.0.0"), ("b@^1", some "1.0.0")]

/-- Lock data with one entry lacking the resolved-version field and one
well-formed entry. -/
def c5Lock : YarnLockJson := ⟨[("a@^1.0.0", ⟨none⟩), ("b@~2.0.0", ⟨some "2.3.0"⟩)]⟩

/-- A registry response page `{info: {name, version, license}}`. -/
def c6Page (nm ver : String) (lic : JVal) : JVal :=
  .obj [("info", .obj [("name", .str nm), ("version", .str ver), ("license", lic)])]

/-- A network where the single queried package answers with `license: null`
(as the Python package index does for packages without license metadata). -/
def c6CexNet : String → Option JVal := fun url =>
  if url = "https://pypi.org/pypi/a/1.0/json" then some (c6Page "a" "1.0" .null) else none

/-- The queried pair of the `license: null` counterexample. -/
def c6CexPairs : List (String × String) := [("a", "1.0")]

/-- Five queried pairs, one of which will receive an undecodable body. -/
def c6Pairs : List (String × String) :=
  [("m", "1.0"), ("n", "2.0"), ("o", "3.0"), ("bad", "4.0"), ("r", "5.0")]

/-- A network answering four of the five pairs with well-formed pages and one
(`bad`) with an undecodable body. -/
def c6Net : String → Option JVal := fun url =>
  if url = "https://pypi.org/pypi/m/1.0/json" then some (c6Page "m" "1.0" (.str "MIT")) else
  if url = "https://pypi.org/pypi/n/2.0/json" then some (c6Page "n" "2.0" (.str "BSD")) else
  if url = "https://pypi.org/pypi/o/3.0/json" then
    some (.obj [("info", .obj [("name", .str "o"), ("version", .str "3.0")])]) else
  if url = "https://pypi.org/pypi/r/5.0/json" then some (c6Page "r" "5.0" (.str "ISC")) else
  none

/-- Leaf record `t@2.0`. -/
def c1T : FlatDep := .mk (some "t") (some "2.0") .nil

/-- Empty placeholder record for `u@1.0`. -/
def c1U0 : FlatDep := .mk (some "u") (some "1.0") .nil

/-- Full record for `u@1.0` recorded at the root scope, with child `t`. -/
def c1Ur : FlatDep := .mk (some "u") (some "1.0") (.cons "t@2.0" c1T .nil)

/-- The dict being expanded: a single placeholder entry for `u@1.0`. -/
def c1Entries : Deps := .cons "u@1.0" c1U0 .nil

/-- Ancestor chain of the expansion: the immediate parent records only the
placeholder, the root records the full `u@1.0`. -/
def c1Ancs : List Anc := [⟨"par", c1Entries⟩, ⟨"root", .cons "u@1.0" c1Ur .nil⟩]

/-- The node list the expansion produces: `u@1.0` adopts the root's record
and gains the child `t@2.0`. -/
def c1NS : NodeList :=
  .cons (.mk "u" (some "1.0") (.cons (.mk "t" (some "2.0") .nil) .nil)) .nil

/-- A record with a missing version field, which `get_node_from_dependency`
rejects. -/
def c8Bad : FlatDep := .mk (some "bad") none .nil

/-- A well-formed leaf record `g@1.0`. -/
def c8G : FlatDep := .mk (some "g") (some "1.0") .nil

/-- The entries following the malformed record. -/
def c8Post : Deps := .cons "g@1.0" c8G .nil

/-- A minimal ancestor chain (just a root with an empty dict). -/
def c8Ancs : List Anc := [⟨"r", Deps.nil⟩]

/-- A manifest with no declared dependencies. -/
def c10Pj : PackageJson := ⟨some "proj", some "1.0.0", []⟩

/-- Empty lock data. -/
def c10Lock : YarnLockJson := ⟨[]⟩

/-- The annotated tree `YarnRunner.check` produces for the empty project. -/
def c10Tree : LNode := .mk "proj" (some "1.0.0") none .nil

/-- The tree `get_dependency_tree` reconciles from `c2Flat`: `x@1` expands a
child also named `x` (at version 2), and the cycle-guarded `w` is kept as a
leaf below `y` below `w`. -/
def c2Tree : Node :=
  .mk "proj" (some "1.0.0")
    (.cons (.mk "x" (some "1")
        (.cons (.mk "x" (some "2")
            (.cons (.mk "y" (some "1") .nil) .nil)) .nil))
      (.cons (.mk "w" (some "1")
          (.cons (.mk "y" (some "1")
              (.cons (.mk "w" (some "1") .nil) .nil)) .nil))
        .nil))

/-- First ancestor chain of the claim-C9 witness: the parent records only the
placeholder of `u@1.0`, the root records the full entry. -/
def c9WAncs1 : List Anc := [⟨"p1", c1Entries⟩, ⟨"root", .cons "u@1.0" c1Ur .nil⟩]

/-- Second, unrelated ancestor chain of the claim-C9 witness: a longer chain
whose root records the same full entry for `u@1.0`. -/
def c9WAncs2 : List Anc :=
  [⟨"q1", c1Entries⟩, ⟨"other", Deps.nil⟩, ⟨"root", .cons "u@1.0" c1Ur .nil⟩]

/-- The children both witness expansions of `u@1.0` produce. -/
def c9WCS : NodeList := .cons (.mk "t" (some "2.0") .nil) .nil

/-- Well-formedness of the name chain walked by the reconciler: no name may
recur at distance two or more (equal names are only ever adjacent).  This is
exactly what the cycle guard enforces, and it bounds the chain length. -/
def okChain : List String → Prop
  | [] => True
  | a :: ys => a ∉ ys.tail ∧ okChain ys

theorem pmInsert_lookup_self (m : List (String × Option String)) (k : String) (v : Option String) :
    pmLookup (pmInsert m k v) k = some v := by
  induction m with
  | nil => simp [pmInsert, pmLookup]
  | cons hd tl ih =>
    by_cases h : hd.1 = k
    · simp [pmInsert, pmLookup, h]
    · simp [pmInsert, pmLookup, h, ih]

theorem pmInsert_lookup_ne (m : List (String × Option String)) (k' : String) (v : Option String)
    (k : String) (h : k' ≠ k) : pmLookup (pmInsert m k' v) k = pmLookup m k := by
  induction m with
  | nil => simp [pmInsert, pmLookup, h]
  | cons hd tl ih =>
    by_cases h2 : hd.1 = k'
    · simp [pmInsert, pmLookup, h2, h]
    · simp [pmInsert, pmLookup, h2, ih]

theorem parse_yarn_lock_foldl_frame (l : List (String × LockEntry))
    (acc : List (String × Option String)) (k : String) (h : k ∉ l.map Prod.fst) :
    pmLookup (l.foldl (fun package_map kv => pmInsert package_map kv.1 kv.2.version) acc) k =
      pmLookup acc k := by
  induction l generalizing acc with
  | nil => rfl
  | cons hd tl ih =>
    simp only [List.map_cons, List.mem_cons] at h
    push_neg at h
    simp only [List.foldl_cons]
    rw [ih _ h.2, pmInsert_lookup_ne _ _ _ _ (fun he => h.1 he.symm)]

/-- Claim C7: `get_name` special-cases scoped names: `"@scope/pkg@1.2.3"`
yields `"@scope/pkg"` and `"pkg@1.2.3"` yields `"pkg"`. -/
theorem claim_C7 : get_name "@scope/pkg@1.2.3" = some "@scope/pkg" ∧
    get_name "pkg@1.2.3" = some "pkg" := by
  exact ⟨rfl, rfl⟩

/-- Claim C4, evaluated at the failing input: with the manifest declaring `a`
at range `^1.0.0`, an empty lock map and an empty flat tree, the requirement
key `a@^1.0.0` has no entry in the version map, and `get_dependency_tree`
raises an `AttributeError` (`dependency` is `None` at line 255) instead of
producing a dead-end node, whatever the fuel. -/
theorem claim_C4 : ∀ fuel : Nat,
    get_dependency_tree fuel Deps.nil c4Pj [] = RunRes.exn := by
  intro fuel
  rfl

/-- Counterexample to claim C5 as stated: the lock entry `a@^1.0.0` lacks the
resolved-version field, yet `parse_yarn_lock` does not skip it — the returned
map does contain the key `a@^1.0.0` (bound to `None`). -/
theorem claim_C5_cex :
    pmContainsKey (parse_yarn_lock c5Lock) "a@^1.0.0" = true ∧
    pmLookup (parse_yarn_lock c5Lock) "a@^1.0.0" = some none := by
  exact ⟨rfl, rfl⟩

/-- Claim C5 as amended: a lock entry whose record lacks the resolved-version
field is not skipped but recorded with a `None` value (no error is raised;
`dict.get` observes the same `None` as for an absent key). -/
theorem claim_C5 (lock : YarnLockJson) (k : String) (e : LockEntry)
    (hnd : (lock.object.map Prod.fst).Nodup) (hmem : (k, e) ∈ lock.object)
    (hv : e.version = none) :
    pmLookup (parse_yarn_lock lock) k = some none ∧ pmGet (parse_yarn_lock lock) k = none := by
  have main : pmLookup (parse_yarn_lock lock) k = some none := by
    unfold parse_yarn_lock
    obtain ⟨l1, l2, hsplit⟩ := List.append_of_mem hmem
    rw [hsplit]
    rw [hsplit] at hnd
    simp only [List.map_append, List.map_cons, List.nodup_append] at hnd
    have hk2 : k ∉ l2.map Prod.fst := by
      have := hnd.2.1
      simp only [List.nodup_cons] at this
      exact this.1
    have hk1 : k ∉ l1.map Prod.fst := by
      intro hk
      exact hnd.2.2 hk (by simp)
    rw [List.foldl_append]
    simp only [List.foldl_cons]
    rw [parse_yarn_lock_foldl_frame _ _ _ hk2, hv, pmInsert_lookup_self]
  refine ⟨main, ?_⟩
  unfold pmGet
  rw [main]

/-- Witness for claim C5 at the concrete lock data `c5Lock`: its first entry
`a@^1.0.0` lacks a resolved version and ends up bound to `None`. -/
theorem claim_C5_witness :
    pmLookup (parse_yarn_lock c5Lock) "a@^1.0.0" = some none ∧
    pmGet (parse_yarn_lock c5Lock) "a@^1.0.0" = none :=
  claim_C5 c5Lock "a@^1.0.0" ⟨none⟩ (by decide) (by simp [c5Lock]) rfl

/-- Counterexample to claim C2 as stated: on the flat tree `c2Flat` the
reconciled tree contains a node named `x` whose immediate parent (not the
root) is also named `x`, and a cycle-guarded leaf named `w` whose grandparent
is named `w` — so some node's name does equal the name of a strict non-root
ancestor. -/
theorem claim_C2_cex :
    (treeOf (get_dependency_tree 20 c2Flat c2Pj c2Pm)).map treeNamesOk = some false ∧
    pathNode (get_dependency_tree 20 c2Flat c2Pj c2Pm) ["x", "x"] =
      some (.mk "x" (some "2") (.cons (.mk "y" (some "1") .nil) .nil)) ∧
    pathNode (get_dependency_tree 20 c2Flat c2Pj c2Pm) ["w", "y", "w"] =
      some (.mk "w" (some "1") .nil) := by
  exact ⟨rfl, rfl, rfl⟩

/-- Counterexample to claim C9 as stated: `z@4.0.0` occurs in the two
unrelated subtrees `a` and `b` of the reconciled tree of `c9Flat`; the
occurrence under `a` adopts the non-empty record found in `a`'s own scope
(child `p@1.0.0`) while the occurrence under `b` adopts the root record
(child `q@1.0.0`) — the two occurrences do not end up with the same
authoritative child-set. -/
theorem claim_C9_cex :
    (pathNode (get_dependency_tree 20 c9Flat c9Pj c9Pm) ["a", "z"]).map
        (fun n => ((n.name, n.version), n.children.nvList)) =
      some (("z", some "4.0.0"), [("p", some "1.0.0")]) ∧
    (pathNode (get_dependency_tree 20 c9Flat c9Pj c9Pm) ["b", "z"]).map
        (fun n => ((n.name, n.version), n.children.nvList)) =
      some (("z", some "4.0.0"), [("q", some "1.0.0")]) := by
  exact ⟨rfl, rfl⟩

/-- Counterexample to claim C6 as stated: for the queried pair `(a, 1.0)` the
registry answers with a well-formed page whose `license` field is `null`; the
returned license map then contains the key `a@1.0` bound to the JSON `null`
value — the pair neither appears with a string value nor is omitted. -/
theorem claim_C6_cex :
    fetch_licenses c6CexPairs c6CexNet = some [("a@1.0", JVal.null)] ∧
    strOrAbsentJ [("a@1.0", JVal.null)] "a@1.0" = false := by
  exact ⟨rfl, rfl⟩

theorem add_nested_loop_skip (recurse : FlatDep → List Anc → Option NodeList)
    (k : String) (c : FlatDep) (post : Deps) (ancs : List Anc)
    (h : get_node_from_dependency c = none) :
    ∀ pre : Deps,
      add_nested_loop recurse (pre.append (.cons k c post)) ancs =
        add_nested_loop recurse (pre.append post) ancs
  | .nil => by simp [Deps.append, add_nested_loop, h]
  | .cons k' c' rest => by
    simp only [Deps.append, add_nested_loop]
    rw [add_nested_loop_skip recurse k c post ancs h rest]

/-- Claim C8: a record the candidate-node builder rejects (missing a usable
name or version) is skipped entirely by `add_nested_dependencies` — no node is
emitted for it, no error is raised, and the remaining entries are processed
exactly as if the record were absent. -/
theorem claim_C8 (fuel : Nat) (pre : Deps) (k : String) (c : FlatDep) (post : Deps)
    (ancs : List Anc) (h : get_node_from_dependency c = none) :
    add_nested_go fuel (pre.append (.cons k c post)) ancs =
      add_nested_go fuel (pre.append post) ancs := by
  cases fuel with
  | zero => rfl
  | succ fuel => exact add_nested_loop_skip _ _ _ _ _ h pre

/-- Witness for claim C8: with the malformed record `c8Bad` (missing version)
sitting in front of the well-formed entry `g@1.0`, the expansion result equals
the expansion of the dict without the malformed record. -/
theorem claim_C8_witness :
    add_nested_go 2 (Deps.append Deps.nil (Deps.cons "bad@x" c8Bad c8Post)) c8Ancs =
      add_nested_go 2 (Deps.append Deps.nil c8Post) c8Ancs :=
  claim_C8 2 Deps.nil "bad@x" c8Bad c8Post c8Ancs rfl

mutual
theorem lnodeLicensesNone_annotate_nil (t : Node) :
    lnodeLicensesNone (annotate [] t) = true := by
  cases t with
  | mk n v cs =>
    simp [annotate, lnodeLicensesNone, lmGet, Option.isNone,
      lnodeListLicensesNone_annotate_nil cs]

theorem lnodeListLicensesNone_annotate_nil (cs : NodeList) :
    lnodeListLicensesNone (annotateList [] cs) = true := by
  cases cs with
  | nil => rfl
  | cons h t =>
    simp [annotateList, lnodeListLicensesNone, lnodeLicensesNone_annotate_nil h,
      lnodeListLicensesNone_annotate_nil t]
end

/-- Claim C10: whenever `YarnRunner.check` returns, the returned license map
is empty (line 292) and the annotation pass therefore sets the `license`
attribute of every node of the returned tree, root included, to `None`. -/
theorem claim_C10 (fuel : Nat) (package_json : PackageJson) (yarn_lock_json : YarnLockJson)
    (yarn_list : YarnForest) (lt : LNode) (lm : List (String × String))
    (h : YarnRunner_check fuel package_json yarn_lock_json yarn_list = .ok (lt, lm)) :
    lm = [] ∧ lnodeLicensesNone lt = true := by
  unfold YarnRunner_check at h
  dsimp only at h
  split at h
  next => simp at h
  next flat_tree hft =>
    split at h
    next => simp at h
    next => simp at h
    next dep_tree hdt =>
      simp only [RunRes.ok.injEq, Prod.mk.injEq] at h
      refine ⟨h.2.symm, ?_⟩
      rw [← h.1]
      exact lnodeLicensesNone_annotate_nil dep_tree

/-- Witness for claim C10 at the empty project: the check returns the empty
license map and a root node annotated with `license = None`. -/
theorem claim_C10_witness :
    ([] : List (String × String)) = [] ∧ lnodeLicensesNone c10Tree = true :=
  claim_C10 1 c10Pj c10Lock .nil c10Tree [] rfl

theorem add_nested_loop_nvList (recurse : FlatDep → List Anc → Option NodeList) :
    ∀ (entries : Deps) (ancs : List Anc) (ns : NodeList),
      add_nested_loop recurse entries ancs = some ns →
      ns.nvList = (validEntryNVs entries).map nvSome
  | .nil, ancs, ns => by
    intro h
    simp only [add_nested_loop, Option.some.injEq] at h
    subst h
    rfl
  | .cons k c rest, ancs, ns => by
    intro h
    simp only [add_nested_loop] at h
    cases hg : get_node_from_dependency c with
    | none =>
      rw [hg] at h
      simp only [validEntryNVs, hg]
      exact add_nested_loop_nvList recurse rest ancs ns h
    | some nv =>
      obtain ⟨n, v⟩ := nv
      rw [hg] at h
      dsimp only at h
      cases hrest : add_nested_loop recurse rest ancs with
      | none =>
        rw [hrest] at h
        exact absurd h (by cases h2 : (match authoritative_record ancs (n ++ "@" ++ v) with
          | none => some NodeList.nil
          | some full_dep =>
            if n ∈ ancestor_guard_names ancs then some NodeList.nil
            else recurse full_dep ({ name := n, deps := full_dep.dependencies } :: ancs)) <;>
          simp [h2])
      | some ns' =>
        rw [hrest] at h
        cases h2 : (match authoritative_record ancs (n ++ "@" ++ v) with
          | none => some NodeList.nil
          | some full_dep =>
            if n ∈ ancestor_guard_names ancs then some NodeList.nil
            else recurse full_dep ({ name := n, deps := full_dep.dependencies } :: ancs)) with
        | none => rw [h2] at h; exact absurd h (by simp)
        | some cs =>
          rw [h2] at h
          simp only [Option.some.injEq] at h
          subst h
          have ht := add_nested_loop_nvList recurse rest ancs ns' hrest
          simp [NodeList.nvList, validEntryNVs, hg, nvSome, ht]

theorem add_nested_go_nvList (fuel : Nat) (entries : Deps) (ancs : List Anc) (ns : NodeList)
    (h : add_nested_go fuel entries ancs = some ns) :
    ns.nvList = (validEntryNVs entries).map nvSome := by
  cases fuel with
  | zero => exact absurd h (by simp [add_nested_go])
  | succ fuel =>
    simp only [add_nested_go] at h
    exact add_nested_loop_nvList _ entries ancs ns h

theorem add_nested_loop_reconcile (recurse : FlatDep → List Anc → Option NodeList)
    (Hr : ∀ (full_dep : FlatDep) (ancs' : List Anc) (cs : NodeList),
      recurse full_dep ancs' = some cs →
      cs.nvList = (validEntryNVs full_dep.dependencies).map nvSome) :
    ∀ (entries : Deps) (ancs : List Anc) (ns : NodeList),
      add_nested_loop recurse entries ancs = some ns →
      List.Forall₂ (reconcileSpec ancs) (validEntryNVs entries) ns.toList
  | .nil, ancs, ns => by
    intro h
    simp only [add_nested_loop, Option.some.injEq] at h
    subst h
    simp [validEntryNVs, NodeList.toList]
  | .cons k c rest, ancs, ns => by
    intro h
    simp only [add_nested_loop] at h
    cases hg : get_node_from_dependency c with
    | none =>
      rw [hg] at h
      simp only [validEntryNVs, hg]
      exact add_nested_loop_reconcile recurse Hr rest ancs ns h
    | some nv =>
      obtain ⟨n, v⟩ := nv
      rw [hg] at h
      dsimp only at h
      cases hrest : add_nested_loop recurse rest ancs with
      | none =>
        rw [hrest] at h
        exact absurd h (by cases h2 : (match authoritative_record ancs (n ++ "@" ++ v) with
          | none => some NodeList.nil
          | some full_dep =>
            if n ∈ ancestor_guard_names ancs then some NodeList.nil
            else recurse full_dep ({ name := n, deps := full_dep.dependencies } :: ancs)) <;>
          simp [h2])
      | some ns' =>
        rw [hrest] at h
        cases h2 : (match authoritative_record ancs (n ++ "@" ++ v) with
          | none => some NodeList.nil
          | some full_dep =>
            if n ∈ ancestor_guard_names ancs then some NodeList.nil
            else recurse full_dep ({ name := n, deps := full_dep.dependencies } :: ancs)) with
        | none => rw [h2] at h; exact absurd h (by simp)
        | some cs =>
          rw [h2] at h
          simp only [Option.some.injEq] at h
          subst h
          simp only [validEntryNVs, hg, NodeList.toList]
          refine List.Forall₂.cons ?_ (add_nested_loop_reconcile recurse Hr rest ancs ns' hrest)
          refine ⟨rfl, rfl, ?_⟩
          intro full_dep hfull hguard
          rw [hfull] at h2
          dsimp only at h2
          rw [if_neg hguard] at h2
          exact Hr full_dep _ cs h2

/-- Claim C1: for every node the reconciler expands (the entries processed by
`add_nested_dependencies`), whenever the walk of the ancestor chain — from
the immediate parent outward to the root — finds an authoritative record for
the node's `name@version` (closest ancestor first, non-empty child-set
required) and the cycle guard does not fire, the node adopts that record's
child-set: the emitted nodes correspond one-to-one, in order, to the valid
entries of the dict, and such a node's children match the authoritative
record's child-set exactly. -/
theorem claim_C1 (fuel : Nat) (entries : Deps) (ancs : List Anc) (ns : NodeList)
    (h : add_nested_go fuel entries ancs = some ns) :
    List.Forall₂ (reconcileSpec ancs) (validEntryNVs entries) ns.toList := by
  cases fuel with
  | zero => exact absurd h (by simp [add_nested_go])
  | succ fuel =>
    simp only [add_nested_go] at h
    refine add_nested_loop_reconcile _ ?_ entries ancs ns h
    intro full_dep ancs' cs hc
    exact add_nested_go_nvList fuel full_dep.dependencies ancs' cs hc

/-- Witness for claim C1 at the concrete expansion `c1Entries`/`c1Ancs`: the
placeholder `u@1.0` adopts the root's authoritative record and its child list
becomes exactly `t@2.0`. -/
theorem claim_C1_witness :
    List.Forall₂ (reconcileSpec c1Ancs) (validEntryNVs c1Entries) c1NS.toList :=
  claim_C1 3 c1Entries c1Ancs c1NS rfl

/-- Claim C9 as amended: two occurrences of the same `depKey` in unrelated
subtrees are each reconciled by their own recursive expansion (no sharing);
their immediate children agree — as `(name, version)` lists — exactly when
the two ancestor searches adopt records with the same child-set, which the
counterexample shows is not automatic when different scopes record different
non-empty child-sets for the key. -/
theorem claim_C9 (fuel1 fuel2 : Nat) (d1 d2 : FlatDep) (ancs1 ancs2 : List Anc)
    (n v : String) (full1 full2 : FlatDep) (cs1 cs2 : NodeList)
    (_hd1 : get_node_from_dependency d1 = some (n, v))
    (_hd2 : get_node_from_dependency d2 = some (n, v))
    (_ha1 : authoritative_record ancs1 (n ++ "@" ++ v) = some full1)
    (_ha2 : authoritative_record ancs2 (n ++ "@" ++ v) = some full2)
    (heq : full1.dependencies = full2.dependencies)
    (_hg1 : n ∉ ancestor_guard_names ancs1)
    (_hg2 : n ∉ ancestor_guard_names ancs2)
    (hc1 : add_nested_go fuel1 full1.dependencies
      ({ name := n, deps := full1.dependencies } :: ancs1) = some cs1)
    (hc2 : add_nested_go fuel2 full2.dependencies
      ({ name := n, deps := full2.dependencies } :: ancs2) = some cs2) :
    cs1.nvList = cs2.nvList := by
  rw [add_nested_go_nvList _ _ _ _ hc1, add_nested_go_nvList _ _ _ _ hc2, heq]

/-- Witness for claim C9: the record `u@1.0` is expanded independently under
the two unrelated chains `c9WAncs1` and `c9WAncs2`, both of which adopt the
root's record, and the two child lists agree. -/
theorem claim_C9_witness : c9WCS.nvList = c9WCS.nvList :=
  claim_C9 3 7 c1U0 c1U0 c9WAncs1 c9WAncs2 "u" "1.0" c1Ur c1Ur c9WCS c9WCS
    rfl rfl rfl rfl rfl (by decide) (by decide) rfl rfl

theorem tail_dropLast_comm (l : List String) : l.tail.dropLast = l.dropLast.tail := by
  cases l with
  | nil => rfl
  | cons a t =>
    cases t with
    | nil => rfl
    | cons b t2 => rfl

theorem ancestor_guard_names_concat (front : List Anc) (rootA : Anc) :
    ancestor_guard_names (front ++ [rootA]) = (front.map Anc.name).tail := by
  unfold ancestor_guard_names
  cases front with
  | nil => rfl
  | cons a f =>
    simp only [List.map_append, List.map_cons, List.map_nil, List.cons_append, List.tail_cons]
    rw [List.dropLast_concat]

theorem map_anc_dropLast_cons (n : String) (d : Deps) (ancs : List Anc) (hne : ancs ≠ []) :
    (((⟨n, d⟩ : Anc) :: ancs).map Anc.name).dropLast = n :: (ancs.map Anc.name).dropLast := by
  cases ancs with
  | nil => exact absurd rfl hne
  | cons a t => rfl

theorem guard_names_eq_drop_one (ancs : List Anc) :
    ((ancs.map Anc.name).dropLast).drop 1 = ancestor_guard_names ancs := by
  unfold ancestor_guard_names
  rw [List.drop_one]
  exact (tail_dropLast_comm _).symm

theorem add_nested_loop_expandedOk (recurse : FlatDep → List Anc → Option NodeList)
    (ancs : List Anc)
    (Hr : ∀ (full_dep : FlatDep) (n : String), n ∉ ancestor_guard_names ancs →
      ∀ cs : NodeList, recurse full_dep ({ name := n, deps := full_dep.dependencies } :: ancs) = some cs →
      expandedNameOkList (n :: (ancs.map Anc.name).dropLast) cs = true) :
    ∀ (entries : Deps) (ns : NodeList),
      add_nested_loop recurse entries ancs = some ns →
      expandedNameOkList ((ancs.map Anc.name).dropLast) ns = true
  | .nil, ns => by
    intro h
    simp only [add_nested_loop, Option.some.injEq] at h
    subst h
    rfl
  | .cons k c rest, ns => by
    intro h
    simp only [add_nested_loop] at h
    cases hg : get_node_from_dependency c with
    | none =>
      rw [hg] at h
      exact add_nested_loop_expandedOk recurse ancs Hr rest ns h
    | some nv =>
      obtain ⟨n, v⟩ := nv
      rw [hg] at h
      dsimp only at h
      cases hrest : add_nested_loop recurse rest ancs with
      | none =>
        rw [hrest] at h
        exact absurd h (by cases h2 : (match authoritative_record ancs (n ++ "@" ++ v) with
          | none => some NodeList.nil
          | some full_dep =>
            if n ∈ ancestor_guard_names ancs then some NodeList.nil
            else recurse full_dep ({ name := n, deps := full_dep.dependencies } :: ancs)) <;>
          simp [h2])
      | some ns' =>
        rw [hrest] at h
        cases h2 : (match authoritative_record ancs (n ++ "@" ++ v) with
          | none => some NodeList.nil
          | some full_dep =>
            if n ∈ ancestor_guard_names ancs then some NodeList.nil
            else recurse full_dep ({ name := n, deps := full_dep.dependencies } :: ancs)) with
        | none => rw [h2] at h; exact absurd h (by simp)
        | some cs =>
          rw [h2] at h
          simp only [Option.some.injEq] at h
          subst h
          have hrestOk := add_nested_loop_expandedOk recurse ancs Hr rest ns' hrest
          simp only [expandedNameOkList, Bool.and_eq_true]
          refine ⟨?_, hrestOk⟩
          cases ha : authoritative_record ancs (n ++ "@" ++ v) with
          | none =>
            rw [ha] at h2
            simp only [Option.some.injEq] at h2
            subst h2
            simp [expandedNameOk, NodeList.isNil, expandedNameOkList]
          | some full_dep =>
            rw [ha] at h2
            dsimp only at h2
            by_cases hmem : n ∈ ancestor_guard_names ancs
            · rw [if_pos hmem] at h2
              simp only [Option.some.injEq] at h2
              subst h2
              simp [expandedNameOk, NodeList.isNil, expandedNameOkList]
            · rw [if_neg hmem] at h2
              have hcs := Hr full_dep n hmem cs h2
              simp only [expandedNameOk, Bool.and_eq_true]
              refine ⟨?_, hcs⟩
              rw [guard_names_eq_drop_one]
              simp [hmem]

theorem add_nested_go_expandedOk :
    ∀ (fuel : Nat) (entries : Deps) (ancs : List Anc) (ns : NodeList), ancs ≠ [] →
      add_nested_go fuel entries ancs = some ns →
      expandedNameOkList ((ancs.map Anc.name).dropLast) ns = true := by
  intro fuel
  induction fuel with
  | zero => intro entries ancs ns _ h; exact absurd h (by simp [add_nested_go])
  | succ fuel ih =>
    intro entries ancs ns hne h
    simp only [add_nested_go] at h
    refine add_nested_loop_expandedOk _ ancs ?_ entries ns h
    intro full_dep n hmem cs hc
    have := ih full_dep.dependencies ({ name := n, deps := full_dep.dependencies } :: ancs) cs
      (by simp) hc
    rwa [map_anc_dropLast_cons n full_dep.dependencies ancs hne] at this

theorem buildTops_expandedOk (fuel : Nat) (flat_tree : Deps)
    (package_map : List (String × Option String)) (rootName : String) :
    ∀ (l : List (String × String)) (ns : NodeList),
      buildTops fuel flat_tree package_map rootName l = .ok ns →
      expandedNameOkList [] ns = true
  | [] => by
    intro ns h
    simp only [buildTops, RunRes.ok.injEq] at h
    subst h
    rfl
  | (dep_name, dep_version) :: rest => by
    intro ns h
    simp only [buildTops] at h
    cases hget : flat_tree.get (dep_name ++ "@" ++
        pyOptStr (pmGet package_map (dep_name ++ "@" ++ dep_version))) with
    | none => rw [hget] at h; exact absurd h (by simp)
    | some dependency =>
      rw [hget] at h
      dsimp only at h
      cases hadd : add_nested_go fuel dependency.dependencies
          [⟨dep_name, dependency.dependencies⟩, ⟨rootName, flat_tree⟩] with
      | none => rw [hadd] at h; exact absurd h (by simp)
      | some children =>
        rw [hadd] at h
        cases hrest : buildTops fuel flat_tree package_map rootName rest with
        | fuelOut => rw [hrest] at h; exact absurd h (by simp)
        | exn => rw [hrest] at h; exact absurd h (by simp)
        | ok ns' =>
          rw [hrest] at h
          simp only [RunRes.ok.injEq] at h
          subst h
          have hch := add_nested_go_expandedOk fuel dependency.dependencies
            [⟨dep_name, dependency.dependencies⟩, ⟨rootName, flat_tree⟩] children (by simp) hadd
          have hrec := buildTops_expandedOk fuel flat_tree package_map rootName rest ns' hrest
          simp only [expandedNameOkList, expandedNameOk, Bool.and_eq_true]
          refine ⟨⟨?_, ?_⟩, hrec⟩
          · simp
          · exact hch

/-- Claim C2 as amended: in every tree `get_dependency_tree` returns, every
node that has children carries a name distinct from the names of all its
strict ancestors other than its immediate parent, the root excluded.  (The
counterexample shows the stronger claim — no node's name equals any strict
non-root ancestor's name — fails: the guard list omits the immediate parent,
and a cycle-guarded node stays in the tree as a leaf bearing a repeated
name.) -/
theorem claim_C2 (fuel : Nat) (flat_tree : Deps) (package_json : PackageJson)
    (package_map : List (String × Option String)) (t : Node)
    (h : get_dependency_tree fuel flat_tree package_json package_map = .ok t) :
    treeExpandedNameOk t = true := by
  unfold get_dependency_tree at h
  dsimp only at h
  cases hb : buildTops fuel flat_tree package_map (package_json.name.getD "package.json")
      package_json.dependencies with
  | fuelOut => rw [hb] at h; exact absurd h (by simp)
  | exn => rw [hb] at h; exact absurd h (by simp)
  | ok children =>
    rw [hb] at h
    simp only [RunRes.ok.injEq] at h
    subst h
    exact buildTops_expandedOk fuel flat_tree package_map _ package_json.dependencies children hb

/-- Witness for claim C2 at the reconciled tree of `c2Flat`: the invariant
holds on the concrete tree containing both an expanded node named like its
immediate parent and a cycle-guarded leaf. -/
theorem claim_C2_witness : treeExpandedNameOk c2Tree = true :=
  claim_C2 20 c2Flat c2Pj c2Pm c2Tree rfl

theorem okChain_count_le_two : ∀ xs : List String, okChain xs → ∀ a, xs.count a ≤ 2 := by
  intro xs
  induction xs with
  | nil => intro _ a; simp
  | cons x ys ih =>
    intro h a
    obtain ⟨hx, hys⟩ := h
    rw [List.count_cons]
    by_cases hax : x = a
    · subst hax
      have h1 : ys.count x ≤ 1 := by
        cases ys with
        | nil => simp
        | cons y t =>
          simp only [List.tail_cons] at hx
          have ht : t.count x = 0 := List.count_eq_zero.mpr hx
          rw [List.count_cons, ht]
          cases hya : (y == x) <;> simp
      have hxx : (x == x) = true := beq_self_eq_true x
      rw [hxx, if_pos rfl]
      omega
    · have hbe : (x == a) = false := beq_false_of_ne hax
      rw [hbe, if_neg (by simp)]
      have := ih hys a
      omega

theorem okChain_length_le (S : Finset String) (xs : List String) (hok : okChain xs)
    (hs : ∀ x ∈ xs, x ∈ S) : xs.length ≤ 2 * S.card := by
  have hc : ∀ a, xs.count a ≤ 2 := okChain_count_le_two xs hok
  have h1 : ∑ a ∈ xs.toFinset, (xs : Multiset String).count a = xs.length := by
    have := Multiset.toFinset_sum_count_eq (xs : Multiset String)
    rwa [Multiset.coe_card] at this
  have h2 : ∑ a ∈ xs.toFinset, (xs : Multiset String).count a ≤ ∑ _a ∈ xs.toFinset, 2 := by
    refine Finset.sum_le_sum ?_
    intro i _
    simpa using hc i
  have h3 : xs.toFinset.card ≤ S.card := by
    refine Finset.card_le_card ?_
    intro x hx
    exact hs x (List.mem_toFinset.mp hx)
  have h4 : (∑ _a ∈ xs.toFinset, 2) = 2 * xs.toFinset.card := by
    simp [Finset.sum_const, Nat.mul_comm]
  omega

theorem Deps.get_namesIn :
    ∀ (d : Deps) (k : String) (c : FlatDep), d.get k = some c →
      ∀ x ∈ c.namesIn, x ∈ d.namesIn
  | .nil => by intro k c h; exact absurd h (by simp [Deps.get])
  | .cons k' c' rest => by
    intro k c h x hx
    simp only [Deps.get] at h
    by_cases hk : k' = k
    · rw [if_pos hk] at h
      simp only [Option.some.injEq] at h
      subst h
      simp only [Deps.namesIn, List.mem_append]
      exact Or.inl hx
    · rw [if_neg hk] at h
      simp only [Deps.namesIn, List.mem_append]
      exact Or.inr (Deps.get_namesIn rest k c h x hx)

theorem FlatDep.dependencies_namesIn (c : FlatDep) :
    ∀ x ∈ c.dependencies.namesIn, x ∈ c.namesIn := by
  cases c with
  | mk n v deps =>
    intro x hx
    simp only [FlatDep.dependencies] at hx
    simp only [FlatDep.namesIn, List.mem_append]
    exact Or.inr hx

theorem find_full_dependency_get (d : Deps) (k : String) (c : FlatDep)
    (h : find_full_dependency d k = some c) : d.get k = some c := by
  unfold find_full_dependency at h
  cases hg : d.get k with
  | none => rw [hg] at h; exact absurd h (by simp)
  | some c' =>
    rw [hg] at h
    dsimp only at h
    by_cases he : c'.dependencies.isEmpty
    · rw [if_pos he] at h; exact absurd h (by simp)
    · rw [if_neg he] at h
      simp only [Option.some.injEq] at h
      subst h
      rfl

theorem authoritative_record_mem :
    ∀ (ancs : List Anc) (key : String) (full_dep : FlatDep),
      authoritative_record ancs key = some full_dep →
      ∃ a ∈ ancs, find_full_dependency a.deps key = some full_dep := by
  intro ancs
  induction ancs with
  | nil => intro key full_dep h; exact absurd h (by simp [authoritative_record])
  | cons a rest ih =>
    intro key full_dep h
    simp only [authoritative_record] at h
    cases hf : find_full_dependency a.deps key with
    | none =>
      rw [hf] at h
      obtain ⟨a', ha', hfa'⟩ := ih key full_dep h
      exact ⟨a', List.mem_cons_of_mem a ha', hfa'⟩
    | some fd =>
      rw [hf] at h
      simp only [Option.some.injEq] at h
      subst h
      exact ⟨a, List.mem_cons_self a rest, hf⟩

theorem get_node_from_dependency_name (c : FlatDep) (n v : String)
    (h : get_node_from_dependency c = some (n, v)) : c.name = some n := by
  unfold get_node_from_dependency at h
  by_cases hf : (falsyStr c.version || falsyStr c.name) = true
  · rw [if_pos hf] at h; exact absurd h (by simp)
  · rw [if_neg hf] at h
    cases hn : c.name with
    | none => rw [hn] at h; cases hv : c.version <;> rw [hv] at h <;> exact absurd h (by simp)
    | some n' =>
      cases hv : c.version with
      | none => rw [hn, hv] at h; exact absurd h (by simp)
      | some v' =>
        rw [hn, hv] at h
        simp only [Option.some.injEq, Prod.mk.injEq] at h
        rw [h.1]

theorem FlatDep.name_mem_namesIn (c : FlatDep) (n : String) (h : c.name = some n) :
    n ∈ c.namesIn := by
  cases c with
  | mk nm v deps =>
    simp only [FlatDep.name] at h
    subst h
    simp [FlatDep.namesIn]

theorem add_nested_loop_isSome (S : Finset String)
    (recurse : FlatDep → List Anc → Option NodeList) (ancs : List Anc)
    (hanc : ∀ a ∈ ancs, ∀ x ∈ a.deps.namesIn, x ∈ S)
    (Hr : ∀ (full_dep : FlatDep) (n : String), n ∈ S →
      (∀ x ∈ full_dep.dependencies.namesIn, x ∈ S) →
      n ∉ ancestor_guard_names ancs →
      (recurse full_dep ({ name := n, deps := full_dep.dependencies } :: ancs)).isSome = true) :
    ∀ entries : Deps, (∀ x ∈ entries.namesIn, x ∈ S) →
      (add_nested_loop recurse entries ancs).isSome = true
  | .nil, _ => by simp [add_nested_loop]
  | .cons k c rest, hent => by
    have hrestS : ∀ x ∈ rest.namesIn, x ∈ S := by
      intro x hx
      exact hent x (by simp only [Deps.namesIn, List.mem_append]; exact Or.inr hx)
    have hrest := add_nested_loop_isSome S recurse ancs hanc Hr rest hrestS
    obtain ⟨ns', hns'⟩ := Option.isSome_iff_exists.mp hrest
    simp only [add_nested_loop]
    cases hg : get_node_from_dependency c with
    | none => rw [hns']; simp
    | some nv =>
      obtain ⟨n, v⟩ := nv
      dsimp only
      rw [hns']
      cases ha : authoritative_record ancs (n ++ "@" ++ v) with
      | none => simp
      | some full_dep =>
        dsimp only
        by_cases hmem : n ∈ ancestor_guard_names ancs
        · rw [if_pos hmem]
          simp
        · rw [if_neg hmem]
          have hnS : n ∈ S := by
            have hname := get_node_from_dependency_name c n v hg
            have hninc : n ∈ c.namesIn := FlatDep.name_mem_namesIn c n hname
            exact hent n (by simp only [Deps.namesIn, List.mem_append]; exact Or.inl hninc)
          have hfdS : ∀ x ∈ full_dep.dependencies.namesIn, x ∈ S := by
            obtain ⟨a, hamem, hfa⟩ := authoritative_record_mem ancs (n ++ "@" ++ v) full_dep ha
            have hget := find_full_dependency_get a.deps (n ++ "@" ++ v) full_dep hfa
            intro x hx
            exact hanc a hamem x
              (Deps.get_namesIn a.deps _ full_dep hget x (FlatDep.dependencies_namesIn full_dep x hx))
          have hrec := Hr full_dep n hnS hfdS hmem
          obtain ⟨cs, hcs⟩ := Option.isSome_iff_exists.mp hrec
          rw [hcs]
          simp

theorem add_nested_go_isSome (S : Finset String) :
    ∀ (fuel : Nat) (entries : Deps) (front : List Anc) (rootA : Anc),
      okChain (front.map Anc.name) →
      (∀ x ∈ front.map Anc.name, x ∈ S) →
      (∀ a ∈ front ++ [rootA], ∀ x ∈ a.deps.namesIn, x ∈ S) →
      (∀ x ∈ entries.namesIn, x ∈ S) →
      2 * S.card + 2 ≤ fuel + front.length →
      (add_nested_go fuel entries (front ++ [rootA])).isSome = true := by
  intro fuel
  induction fuel with
  | zero =>
    intro entries front rootA hok hfr _ _ hfuel
    have := okChain_length_le S (front.map Anc.name) hok hfr
    simp only [List.length_map] at this
    omega
  | succ fuel ih =>
    intro entries front rootA hok hfr hanc hent hfuel
    simp only [add_nested_go]
    refine add_nested_loop_isSome S _ (front ++ [rootA]) hanc ?_ entries hent
    intro full_dep n hnS hfdS hguard
    have hguard' : n ∉ (front.map Anc.name).tail := by
      rwa [ancestor_guard_names_concat] at hguard
    have hok' : okChain (n :: front.map Anc.name) := ⟨hguard', hok⟩
    have hres := ih full_dep.dependencies ({ name := n, deps := full_dep.dependencies } :: front)
      rootA hok'
      (by
        intro x hx
        simp only [List.map_cons, List.mem_cons] at hx
        cases hx with
        | inl h => rw [h]; exact hnS
        | inr h => exact hfr x h)
      (by
        intro a hamem x hx
        simp only [List.cons_append, List.mem_cons] at hamem
        cases hamem with
        | inl h => rw [h] at hx; exact hfdS x hx
        | inr h => exact hanc a h x hx)
      hfdS
      (by simp only [List.length_cons]; omega)
    exact hres

theorem buildTops_ne_fuelOut (S : Finset String) (flat_tree : Deps)
    (package_map : List (String × Option String)) (rootName : String)
    (hflat : ∀ x ∈ flat_tree.namesIn, x ∈ S) :
    ∀ l : List (String × String), (∀ p ∈ l, p.1 ∈ S) →
      ∀ fuel, 2 * S.card + 1 ≤ fuel →
      buildTops fuel flat_tree package_map rootName l ≠ .fuelOut := by
  intro l
  induction l with
  | nil => intro _ fuel _; simp [buildTops]
  | cons p rest ih =>
    intro hl fuel hfuel
    obtain ⟨dep_name, dep_version⟩ := p
    simp only [buildTops]
    cases hget : flat_tree.get (dep_name ++ "@" ++
        pyOptStr (pmGet package_map (dep_name ++ "@" ++ dep_version))) with
    | none => simp
    | some dependency =>
      dsimp only
      have hdepS : ∀ x ∈ dependency.dependencies.namesIn, x ∈ S := by
        intro x hx
        exact hflat x (Deps.get_namesIn flat_tree _ dependency hget x
          (FlatDep.dependencies_namesIn dependency x hx))
      have hdn : dep_name ∈ S := hl (dep_name, dep_version) (by simp)
      have hsome := add_nested_go_isSome S fuel dependency.dependencies
        [⟨dep_name, dependency.dependencies⟩] ⟨rootName, flat_tree⟩
        ⟨by simp, trivial⟩
        (by
          intro x hx
          simp only [List.map_cons, List.map_nil, List.mem_singleton] at hx
          rw [hx]; exact hdn)
        (by
          intro a hamem x hx
          simp only [List.cons_append, List.nil_append, List.mem_cons] at hamem
          rcases hamem with h | h | h
          · rw [h] at hx; exact hdepS x hx
          · rw [h] at hx; exact hflat x hx
          · exact absurd h (List.not_mem_nil a)
        )
        hdepS
        (by simp only [List.length_singleton]; omega)
      obtain ⟨children, hch⟩ := Option.isSome_iff_exists.mp hsome
      simp only [List.cons_append, List.nil_append] at hch
      rw [hch]
      cases hbt : buildTops fuel flat_tree package_map rootName rest with
      | fuelOut =>
        exact absurd hbt (ih (fun q hq => hl q (List.mem_cons_of_mem _ hq)) fuel hfuel)
      | exn => simp
      | ok ns => simp

/-- Claim C3: `get_dependency_tree` terminates on every finite flat tree,
manifest and lock map — for every input there is a fuel bound that the
recursion of `add_nested_dependencies` never exhausts (it either returns a
tree or raises, but never recurses forever); and on the cyclic scenario
`x@1.0.0 → y@1.0.0 → x@1.0.0` the re-encountered `x` node is retained in the
tree as a childless leaf rather than re-expanded. -/
theorem claim_C3 :
    (∀ (flat_tree : Deps) (package_json : PackageJson)
        (package_map : List (String × Option String)),
      ∃ fuel, get_dependency_tree fuel flat_tree package_json package_map ≠ .fuelOut) ∧
    pathNode (get_dependency_tree 20 c3Flat c3Pj c3Pm) ["x", "y", "x"] =
      some (.mk "x" (some "1.0.0") .nil) := by
  constructor
  · intro flat_tree package_json package_map
    have hS : ∀ x ∈ flat_tree.namesIn,
        x ∈ flat_tree.namesIn.toFinset ∪ (package_json.dependencies.map Prod.fst).toFinset := by
      intro x hx
      exact Finset.mem_union_left _ (List.mem_toFinset.mpr hx)
    have hl : ∀ p ∈ package_json.dependencies,
        p.1 ∈ flat_tree.namesIn.toFinset ∪ (package_json.dependencies.map Prod.fst).toFinset := by
      intro p hp
      exact Finset.mem_union_right _ (List.mem_toFinset.mpr (List.mem_map_of_mem Prod.fst hp))
    refine ⟨2 * (flat_tree.namesIn.toFinset ∪
      (package_json.dependencies.map Prod.fst).toFinset).card + 1, ?_⟩
    have hb := buildTops_ne_fuelOut _ flat_tree package_map
      (package_json.name.getD "package.json") hS package_json.dependencies hl _ le_rfl
    unfold get_dependency_tree
    dsimp only
    cases hbt : buildTops (2 * (flat_tree.namesIn.toFinset ∪
        (package_json.dependencies.map Prod.fst).toFinset).card + 1) flat_tree package_map
        (package_json.name.getD "package.json") package_json.dependencies with
    | fuelOut => exact absurd hbt hb
    | exn => simp
    | ok ns => simp
  · rfl

theorem lmInsertJ_lookup_self (m : List (String × JVal)) (k : String) (v : JVal) :
    lmLookupJ (lmInsertJ m k v) k = some v := by
  induction m with
  | nil => simp [lmInsertJ, lmLookupJ]
  | cons hd tl ih =>
    by_cases h : hd.1 = k
    · simp [lmInsertJ, lmLookupJ, h]
    · simp [lmInsertJ, lmLookupJ, h, ih]

theorem lmInsertJ_lookup_ne (m : List (String × JVal)) (k' : String) (v : JVal)
    (k : String) (h : k' ≠ k) : lmLookupJ (lmInsertJ m k' v) k = lmLookupJ m k := by
  induction m with
  | nil => simp [lmInsertJ, lmLookupJ, h]
  | cons hd tl ih =>
    by_cases h2 : hd.1 = k'
    · simp [lmInsertJ, lmLookupJ, h2, h]
    · simp [lmInsertJ, lmLookupJ, h2, ih]

theorem fetchLicensesGo_echo :
    ∀ (pairs : List (String × String)) (network : String → Option JVal)
      (m0 : List (String × JVal)),
      (∀ p ∈ pairs, EchoOk p (network (fetch_url p))) →
      ((pairs.map pairKey).Nodup) →
      ∃ m, fetchLicensesGo ((pairs.map fetch_url).map network) m0 = some m ∧
        (∀ key, key ∉ pairs.map pairKey → lmLookupJ m key = lmLookupJ m0 key) ∧
        (∀ p ∈ pairs,
          (network (fetch_url p) = none →
            lmLookupJ m (pairKey p) = lmLookupJ m0 (pairKey p)) ∧
          (∀ fields infoFields, network (fetch_url p) = some (.obj fields) →
            jObjGet fields "info" = some (.obj infoFields) →
            lmLookupJ m (pairKey p) = some (licenseOf infoFields))) := by
  intro pairs
  induction pairs with
  | nil =>
    intro network m0 _ _
    exact ⟨m0, rfl, fun key _ => rfl, fun p hp => absurd hp (List.not_mem_nil p)⟩
  | cons p rest ih =>
    intro network m0 hecho hnd
    have hp := hecho p (List.mem_cons_self p rest)
    simp only [List.map_cons, List.nodup_cons] at hnd
    obtain ⟨hpk, hndrest⟩ := hnd
    have hechorest : ∀ q ∈ rest, EchoOk q (network (fetch_url q)) :=
      fun q hq => hecho q (List.mem_cons_of_mem p hq)
    cases hnet : network (fetch_url p) with
    | none =>
      obtain ⟨m, hm, hframe, hrest⟩ := ih network m0 hechorest hndrest
      refine ⟨m, ?_, ?_, ?_⟩
      · simp only [List.map_cons, fetchLicensesGo, hnet, fetch_step]
        exact hm
      · intro key hkey
        simp only [List.map_cons, List.mem_cons] at hkey
        push_neg at hkey
        exact hframe key hkey.2
      · intro q hq
        simp only [List.mem_cons] at hq
        cases hq with
        | inl h =>
          subst h
          constructor
          · intro _
            exact hframe (pairKey q) hpk
          · intro fields infoFields h1 _
            rw [hnet] at h1
            exact absurd h1 (by simp)
        | inr h => exact hrest q h
    | some page =>
      rw [hnet] at hp
      obtain ⟨fields, infoFields, hpage, hinfo, hname, hversion⟩ := hp
      subst hpage
      have hstep : fetch_step m0 (some (JVal.obj fields)) =
          some (lmInsertJ m0 (pairKey p) (licenseOf infoFields)) := by
        simp only [fetch_step, hinfo, Option.getD_some, hname, hversion]
        rfl
      obtain ⟨m, hm, hframe, hrest⟩ :=
        ih network (lmInsertJ m0 (pairKey p) (licenseOf infoFields)) hechorest hndrest
      refine ⟨m, ?_, ?_, ?_⟩
      · simp only [List.map_cons, fetchLicensesGo, hnet, hstep]
        exact hm
      · intro key hkey
        simp only [List.map_cons, List.mem_cons] at hkey
        push_neg at hkey
        rw [hframe key hkey.2]
        exact lmInsertJ_lookup_ne m0 (pairKey p) (licenseOf infoFields) key hkey.1.symm
      · intro q hq
        simp only [List.mem_cons] at hq
        cases hq with
        | inl h =>
          subst h
          constructor
          · intro hcontra
            rw [hnet] at hcontra
            exact absurd hcontra (by simp)
          · intro fields' infoFields' h1 h2
            rw [hnet] at h1
            simp only [Option.some.injEq, JVal.obj.injEq] at h1
            subst h1
            rw [hinfo] at h2
            simp only [Option.some.injEq, JVal.obj.injEq] at h2
            subst h2
            rw [hframe (pairKey q) hpk]
            exact lmInsertJ_lookup_self m0 (pairKey q) (licenseOf infoFields)
        | inr h =>
          have hq2 := hrest q h
          have hkeyne : pairKey q ≠ pairKey p := by
            intro he
            exact hpk (he ▸ List.mem_map_of_mem pairKey h)
          constructor
          · intro hn
            rw [(hq2.1 hn)]
            exact lmInsertJ_lookup_ne m0 (pairKey p) (licenseOf infoFields) (pairKey q) hkeyne.symm
          · exact hq2.2

/-- Claim C6 as amended: whenever every response either fails to decode or is
a well-formed registry page echoing the queried pair, the batch completes,
and each queried pair either is omitted from the license map (exactly when
its body failed to decode — only that pair is dropped) or appears under
exactly the key `name@version` with the response's `license` value: the
license string in the normal case, the string "Unknown" when the field is
absent, but the raw JSON value — `null` included — when the field holds one,
as the counterexample shows. -/
theorem claim_C6 (pairs : List (String × String)) (network : String → Option JVal)
    (hecho : ∀ p ∈ pairs, EchoOk p (network (fetch_url p)))
    (hnd : (pairs.map pairKey).Nodup) :
    ∃ m, fetch_licenses pairs network = some m ∧
      ∀ p ∈ pairs,
        (network (fetch_url p) = none → lmLookupJ m (pairKey p) = none) ∧
        (∀ fields infoFields, network (fetch_url p) = some (.obj fields) →
          jObjGet fields "info" = some (.obj infoFields) →
          lmLookupJ m (pairKey p) = some (licenseOf infoFields)) := by
  obtain ⟨m, hm, _, hres⟩ := fetchLicensesGo_echo pairs network [] hecho hnd
  refine ⟨m, hm, ?_⟩
  intro p hp
  exact ⟨fun hn => (hres p hp).1 hn, (hres p hp).2⟩

/-- Witness for claim C6 at the five-pair batch `c6Pairs`/`c6Net`: the pair
`bad@4.0` receives an undecodable body and is dropped, the other four pairs
complete and appear with their license strings (with `o@3.0` receiving the
"Unknown" sentinel for its absent license field). -/
theorem claim_C6_witness :
    ∃ m, fetch_licenses c6Pairs c6Net = some m ∧
      ∀ p ∈ c6Pairs,
        (c6Net (fetch_url p) = none → lmLookupJ m (pairKey p) = none) ∧
        (∀ fields infoFields, c6Net (fetch_url p) = some (.obj fields) →
          jObjGet fields "info" = some (.obj infoFields) →
          lmLookupJ m (pairKey p) = some (licenseOf infoFields)) := by
  refine claim_C6 c6Pairs c6Net ?_ (by decide)
  intro p hp
  simp only [c6Pairs, List.mem_cons, List.not_mem_nil, or_false] at hp
  rcases hp with h | h | h | h | h <;> subst h
  · exact ⟨_, _, rfl, rfl, rfl, rfl⟩
  · exact ⟨_, _, rfl, rfl, rfl, rfl⟩
  · exact ⟨_, _, rfl, rfl, rfl, rfl⟩
  · exact trivial
  · exact ⟨_, _, rfl, rfl, rfl, rfl⟩
